import Mathlib

/-!
Shallow embedding of `src/app.py` (Global Launch Navigator).

The Python code manipulates a "flow" document: a dict with a `"steps"` key
holding a list of step dicts.  Steps are modelled as records whose fields are
`Option`-typed (a `none` models an absent dict key).  Python floats are
modelled as exact rationals (`ℚ`); CPython's `json` and `float`/`str`
round-trip the numeric values exactly at this granularity, which is all the
claims depend on.  In-place dict mutation is rendered functionally: a loop
that mutates the step dicts of the list held in `data["steps"]` becomes a
positional `map` over the list, and `uuid.uuid4()` is rendered as an explicit
supply `fresh : Nat → String` of generated identifiers (the claims never
depend on the actual identifier strings).
-/

namespace LaunchNav

/-- Constant `PHASES` from `app.py` (lines 35–40). -/
def PHASES : List String :=
  ["Pilot & Initiate", "Prepare & Startup", "Execute & Adopt", "Close & Sustain"]

/-- Constant `PATH_VARIANTS` from `app.py` (line 42). -/
def PATH_VARIANTS : List String := ["Primary", "Data Prep", "Enhanced", "Exit"]

/-- A step dict.  `none` models an absent key.  Fields are those read or
written anywhere in `app.py` for a step. -/
structure Step where
  id : Option String := none
  title : Option String := none
  phase : Option String := none
  path : Option String := none
  description : Option String := none
  timeline : Option String := none
  volume : Option ℚ := none
  success : Option ℚ := none
  owner : Option String := none
  status : Option String := none
  order : Option Int := none
deriving Repr, DecidableEq

/-- The flow document: a dict whose `"steps"` key (possibly absent, hence
`Option`) holds the list of steps.  `normalize_flow` reads it with
`data.get("steps", [])` and writes it back. -/
structure Doc where
  steps : Option (List Step) := none
deriving Repr, DecidableEq

/-- Python `enumerate(steps)` starting at `n`. -/
def pyEnum (n : Nat) : List Step → List (Nat × Step)
  | [] => []
  | s :: l => (n, s) :: pyEnum (n + 1) l

/-- Coercion `if "phase" not in s or s["phase"] not in PHASES: s["phase"] = PHASES[0]`
(app.py lines 254–255), expressed as the resulting phase value. -/
def coercePhase (p : Option String) : String :=
  match p with
  | some v => if v ∈ PHASES then v else "Pilot & Initiate"
  | none => "Pilot & Initiate"

/-- Coercion `if "path" not in s or s["path"] not in PATH_VARIANTS: s["path"] = "Primary"`
(app.py lines 256–257), expressed as the resulting path value. -/
def coercePath (p : Option String) : String :=
  match p with
  | some v => if v ∈ PATH_VARIANTS then v else "Primary"
  | none => "Primary"

/-- The per-step body of the first loop of `normalize_flow` (app.py lines
251–262) minus the id assignment: coerce `phase`/`path` and `setdefault` the
scalar fields. -/
def fillFields (s : Step) : Step :=
  { s with
    phase := some (coercePhase s.phase)
    path := some (coercePath s.path)
    timeline := some (s.timeline.getD "")
    volume := some (s.volume.getD 0)
    success := some (s.success.getD 0)
    owner := some (s.owner.getD "")
    status := some (s.status.getD "Planned") }

/-- The first loop of `normalize_flow` (app.py lines 251–262): assign a fresh
id where missing (`s["id"] = str(uuid.uuid4())`), then coerce/setdefault the
other fields.  `n` counts the uuids drawn so far. -/
def fillSteps (fresh : Nat → String) (n : Nat) : List Step → List Step
  | [] => []
  | s :: l =>
    match s.id with
    | none => fillFields { s with id := some (fresh n) } :: fillSteps fresh (n + 1) l
    | some _ => fillFields s :: fillSteps fresh n l

/-- Key `x.get("order", 9999)`, the sort key of the per-phase sort
(app.py lines 266–268). -/
def orderKey (s : Step) : Int := s.order.getD 9999

/-- The sort relation of `sorted(phase_steps, key=lambda x: x.get("order", 9999))`
on position-annotated steps; `insertionSort` with a `≤`-shaped relation is the
stable sort, matching Python's `sorted`. -/
def gle (a b : Nat × Step) : Prop := orderKey a.2 ≤ orderKey b.2

instance : DecidableRel gle := fun a b =>
  inferInstanceAs (Decidable (orderKey a.2 ≤ orderKey b.2))

/-- List `sorted(phase_steps, key=...)` where `phase_steps = [s for s in steps if
s["phase"] == phase]`, with each step annotated by its position in `steps`
(the annotation stands for Python's object identity of the step dicts). -/
def phaseGroup (l : List Step) (ph : String) : List (Nat × Step) :=
  List.insertionSort gle ((pyEnum 0 l).filter (fun q => q.2.phase = some ph))

/-- The `order` value the second loop of `normalize_flow` writes into the step
at position `p` (phase `ph`): its index `i` in the sorted phase group
(`for i, s in enumerate(phase_steps_sorted): s["order"] = i`, lines 269–270). -/
def phaseRank (l : List Step) (ph : String) (p : Nat) : Nat :=
  (phaseGroup l ph).findIdx (fun q => q.1 == p)

/-- One iteration of `for phase in PHASES` (app.py lines 264–270): every step
of phase `ph` gets its order overwritten with its index in the sorted phase
group; other steps are untouched.  (The in-place dict mutation is rendered as
a positional map; the group is captured from the current list before the
mutation, exactly as `sorted(...)` captures it.) -/
def assignPhase (l : List Step) (ph : String) : List Step :=
  (pyEnum 0 l).map (fun q =>
    if q.2.phase = some ph then
      { q.2 with order := some (Int.ofNat (phaseRank l ph q.1)) }
    else q.2)

/-- The whole `for phase in PHASES` loop: later iterations see the list as
mutated by earlier ones. -/
def assignOrders (l : List Step) : List Step := PHASES.foldl assignPhase l

/-- Expression `PHASES.index(s["phase"]) if s["phase"] in PHASES else 999`, the first
component of the final sort key (app.py lines 272–277). -/
def phaseIdx (s : Step) : Nat :=
  match s.phase with
  | some p => if p ∈ PHASES then PHASES.indexOf p else 999
  | none => 999

/-- The final sort key `(phase index, s.get("order", 0))`. -/
def finalKey (s : Step) : Nat × Int := (phaseIdx s, s.order.getD 0)

/-- Python tuple comparison is lexicographic, so the final `steps.sort(key=...)`
sorts by the lexicographic order on `finalKey`. -/
def finalLe (a b : Step) : Prop := toLex (finalKey a) ≤ toLex (finalKey b)

instance : DecidableRel finalLe := fun a b =>
  inferInstanceAs (Decidable (toLex (finalKey a) ≤ toLex (finalKey b)))

/-- Sort `steps.sort(key=lambda s: (phase index, order))` (app.py lines 272–277);
stable sort rendered as insertion sort. -/
def sortSteps (l : List Step) : List Step := List.insertionSort finalLe l

/-- The effect of `normalize_flow` on the steps list (app.py lines 249–278). -/
def normalizeSteps (fresh : Nat → String) (l : List Step) : List Step :=
  sortSteps (assignOrders (fillSteps fresh 0 l))

/-- Function `normalize_flow(data)` (app.py lines 247–278): reads
`data.get("steps", [])`, runs the three passes, stores the result back in
`data["steps"]`. -/
def normalize_flow (fresh : Nat → String) (d : Doc) : Doc :=
  { steps := some (normalizeSteps fresh (d.steps.getD [])) }

/-! Metrics (app.py lines 461–470) -/

/-- Python's `sum(list_of_floats)` (left fold starting at 0). -/
def pySum (l : List ℚ) : ℚ := l.foldl (· + ·) 0

/-- Function `compute_metrics(flow)` (app.py lines 461–470): returns the tuple
`(total, avg_success, avg_volume)`.  `float(s.get("success", 0))` /
`float(s.get("volume", 0))` on the numeric fields is `Option.getD 0`. -/
def compute_metrics (flow : Doc) : Nat × ℚ × ℚ :=
  let steps := flow.steps.getD []
  let total := steps.length
  let avg_success :=
    if total = 0 then 0 else pySum (steps.map (fun s => s.success.getD 0)) / total
  let avg_volume :=
    if total = 0 then 0 else pySum (steps.map (fun s => s.volume.getD 0)) / total
  (total, avg_success, avg_volume)

/-! Tolerant-parsing site (app.py line 225) -/

/-- A JSON scalar as stored under `success_rate` in the legacy `nodes`
shape: a number or a string. -/
inductive SVal where
  | num (q : ℚ)
  | str (s : String)
deriving Repr, DecidableEq

/-- Python `s.replace("%", "")`: with a one-character pattern this removes
every `'%'` from the string (working on the character list). -/
def stripPct (cs : List Char) : List Char := cs.filter (fun c => c != '%')

/-- The surrounding-whitespace stripping CPython's `float(string)` performs
before parsing. -/
def trimWs (cs : List Char) : List Char :=
  ((cs.dropWhile Char.isWhitespace).reverse.dropWhile Char.isWhitespace).reverse

/-- Value of a string of decimal digits. -/
def digitsVal (ds : List Char) : Nat := ds.foldl (fun n c => 10 * n + (c.toNat - 48)) 0

/-- Recognizer part of the CPython `float(string)` model, for the decimal
forms exercised by the claims: optional surrounding whitespace, optional sign,
decimal digits with an optional `.` fractional part, at least one digit in
total.  Forms outside this grammar (exponents, `inf`/`nan`, underscores) do
not occur among the inputs considered and are mapped to `none`
(= `ValueError`) like every other non-numeric string.  Returns
`(negative?, integer part, fractional digits value, fractional digit count)`. -/
def pyFloatParts? (cs : List Char) : Option (Bool × Nat × Nat × Nat) :=
  let t := trimWs cs
  let signed : Bool × List Char :=
    match t with
    | '-' :: rest => (true, rest)
    | '+' :: rest => (false, rest)
    | _ => (false, t)
  let intPart := signed.2.takeWhile Char.isDigit
  let rest := signed.2.dropWhile Char.isDigit
  match rest with
  | [] => if intPart.isEmpty then none else some (signed.1, digitsVal intPart, 0, 0)
  | '.' :: frac =>
    if frac.all Char.isDigit ∧ ¬(intPart.isEmpty ∧ frac.isEmpty) then
      some (signed.1, digitsVal intPart, digitsVal frac, frac.length)
    else none
  | _ => none

/-- The rational value of parsed float components. -/
def partsToQ (p : Bool × Nat × Nat × Nat) : ℚ :=
  (if p.1 then -1 else 1) * ((p.2.1 : ℚ) + (p.2.2.1 : ℚ) / (10 ^ p.2.2.2))

/-- Model of CPython `float(string)`: the value of the recognized decimal
form, `none` (= `ValueError`) otherwise. -/
def pyFloat? (cs : List Char) : Option ℚ := (pyFloatParts? cs).map partsToQ

/-- Expression `float(str(n.get("success_rate", 0)).replace("%", "") or 0)` (app.py line
225).  For a numeric value `str` prints it without `%` and `float` reads it
back exactly (CPython repr round-trip), so the numeric case yields the number
itself.  An empty string after `%`-stripping is falsy, so `or 0` turns it into
`0`.  An unparseable remaining string makes `float` raise `ValueError`, which
propagates (the call is outside the `try` of `load_flow`). -/
def parse_success : SVal → Except String ℚ
  | .num q => .ok q
  | .str s =>
    let t := stripPct s.toList
    if t.isEmpty then .ok 0
    else
      match pyFloat? t with
      | some q => .ok q
      | none => .error "ValueError"

/-! Load / save (app.py lines 200–244) and the default flow (84–197) -/

/-- A record of the legacy `nodes` shape (read in app.py lines 216–230). -/
structure NodeRec where
  id : Option String := none
  label : Option String := none
  phase : Option String := none
  description : Option String := none
  time_estimate : Option String := none
  volume_pct : Option ℚ := none
  success_rate : Option SVal := none
  path : Option String := none
  owner : Option String := none
  status : Option String := none
  order : Option Int := none
deriving Repr, DecidableEq

/-- The parsed JSON top-level value, to the granularity `load_flow` inspects
it: a dict with optional `"steps"` / `"nodes"` keys (entries modelled as
well-typed step/node records), or any non-dict value. -/
inductive Raw where
  | dict (steps : Option (List Step)) (nodes : Option (List NodeRec))
  | nonDict
deriving Repr, DecidableEq

/-- The state `load_flow` finds the data file in: absent, unreadable
(open/`json.load` raises), or readable with parsed content. -/
inductive FileState where
  | missing
  | unreadable
  | content (raw : Raw)
deriving Repr, DecidableEq

/-- One iteration of the node-conversion loop (app.py lines 216–231).
`freshId` is the `uuid.uuid4()` drawn for this node (the default argument of
`n.get("id", uuid.uuid4())` is evaluated for every node).  The
`success_rate` conversion can raise, aborting the whole load. -/
def convertNode (freshId : String) (n : NodeRec) : Except String Step := do
  let succ ← parse_success (n.success_rate.getD (.num 0))
  .ok { id := some (n.id.getD freshId)
        title := some (n.label.getD "Unnamed step")
        phase := some (n.phase.getD "Pilot & Initiate")
        description := some (n.description.getD "")
        timeline := some (n.time_estimate.getD "")
        volume := some (n.volume_pct.getD 0)
        success := some succ
        path := some (n.path.getD "Primary")
        owner := some (n.owner.getD "")
        status := some (n.status.getD "Planned")
        order := some (n.order.getD 0) }

/-- The node-conversion loop. -/
def convertNodes (fresh : Nat → String) (nodes : List NodeRec) : Except String (List Step) :=
  (pyEnumN 0 nodes).mapM (fun q => convertNode (fresh q.1) q.2)
where
  pyEnumN (n : Nat) : List NodeRec → List (Nat × NodeRec)
    | [] => []
    | x :: l => (n, x) :: pyEnumN (n + 1) l

/-- One step of `default_flow` (app.py lines 86–190): the literal fields plus
the id/order/owner/status filled by the trailing loop (lines 192–196). -/
def mkDefaultStep (freshId : String) (i : Nat) (title description timeline : String)
    (volume success : ℚ) (phase path : String) : Step :=
  { id := some freshId, title := some title, phase := some phase,
    path := some path, description := some description,
    timeline := some timeline, volume := some volume, success := some success,
    owner := some "", status := some "Planned", order := some (Int.ofNat i) }

/-- The hardcoded steps of `default_flow()` (app.py lines 86–190). -/
def defaultSteps (fresh : Nat → String) : List Step :=
  ( [ mkDefaultStep (fresh 0) 0 "Assess launch and secure awareness"
        "Clarify objectives, scope, and high-level success metrics." "1–2w" 5 95
        "Pilot & Initiate" "Primary",
      mkDefaultStep (fresh 1) 1 "Central launch preparations"
        "Align global stakeholders and prepare core materials." "2–3w" 10 92
        "Pilot & Initiate" "Primary",
      mkDefaultStep (fresh 2) 2 "Pilot solution"
        "Run a limited pilot with a representative set of countries/sites." "3–4w" 10 90
        "Pilot & Initiate" "Enhanced",
      mkDefaultStep (fresh 3) 3 "Prepare for global rollout"
        "Finalize business case and deployment plan based on pilot learnings." "2–3w" 20 93
        "Prepare & Startup" "Primary",
      mkDefaultStep (fresh 4) 4 "Introduce launch and prioritize"
        "Prioritize markets and define rollout waves." "1–2w" 20 90
        "Prepare & Startup" "Data Prep",
      mkDefaultStep (fresh 5) 5 "Agree on ambition & timeline"
        "Confirm ambition level and timelines with key stakeholders." "1–2w" 20 92
        "Prepare & Startup" "Primary",
      mkDefaultStep (fresh 6) 6 "Plan launch and adoption"
        "Plan communication, training, and adoption activities." "3–6w" 80 90
        "Execute & Adopt" "Primary",
      mkDefaultStep (fresh 7) 7 "Deliver and adopt solution"
        "Deploy solution to markets and monitor adoption." "6–12w" 80 88
        "Execute & Adopt" "Primary",
      mkDefaultStep (fresh 8) 8 "Handover and close country launch"
        "Transition to run-organization and confirm handover criteria." "2–4w" 100 95
        "Close & Sustain" "Primary",
      mkDefaultStep (fresh 9) 9 "Follow up on value and adoption"
        "Validate realized value and capture lessons learned." "4–6w" 100 93
        "Close & Sustain" "Enhanced",
      mkDefaultStep (fresh 10) 10 "Close launch initiative"
        "Formal closure, governance update, and documentation." "1–2w" 100 97
        "Close & Sustain" "Primary" ] )

/-- Function `default_flow()` (app.py lines 84–197): the hardcoded 11-step demo flow. -/
def default_flow (fresh : Nat → String) : Doc :=
  { steps := some (defaultSteps fresh) }

/-- Function `load_flow()` (app.py lines 200–238) as a function of the data-file
state.  A missing file, an unreadable file, a non-dict top level, or a dict
lacking both `"steps"` and `"nodes"` yield the default flow.  The `"steps"`
branch copies the list and normalizes in place; the `"nodes"` branch converts
each node (which can raise `ValueError` — the conversion loop is outside the
`try`) and then normalizes. -/
def load_flow (fresh : Nat → String) (file : FileState) : Except String Doc :=
  match file with
  | .missing => .ok (default_flow fresh)
  | .unreadable => .ok (default_flow fresh)
  | .content .nonDict => .ok (default_flow fresh)
  | .content (.dict (some steps) _) => .ok (normalize_flow fresh { steps := some steps })
  | .content (.dict none (some nodes)) => do
      let steps ← convertNodes fresh nodes
      .ok (normalize_flow fresh { steps := some steps })
  | .content (.dict none none) => .ok (default_flow fresh)

/-- Function `save_flow(data)` (app.py lines 241–244) writes `json.dump(data)`; the
on-disk JSON, re-parsed, is the same dict (numeric values round-trip exactly
through CPython's json).  The result is the `Raw` value the next `load_flow`
will see. -/
def save_flow (d : Doc) : Raw := .dict d.steps none

/-- Composition `load(save(doc))`: re-reading the file just written by `save_flow`. -/
def saveLoad (fresh : Nat → String) (d : Doc) : Except String Doc :=
  load_flow fresh (.content (save_flow d))

/-! Spec-side comparison definitions.  These two follow the words of the
spec/claims (not the code) and exist only to be compared with the code's
`compute_metrics`. -/

/-- From the claims' words: the number of steps whose `status` is
`In progress` or `Planned` (the `active_count` the spec says `compute`
returns). -/
def specActiveCount (d : Doc) : Nat :=
  ((d.steps.getD []).filter
    (fun s => decide (s.status = some "In progress" ∨ s.status = some "Planned"))).length

/-- From the claim's words: the arithmetic mean of all steps' volume fields,
a missing volume counting as 0, and 0 for an empty steps sequence. -/
def meanVolume (d : Doc) : ℚ :=
  if (d.steps.getD []).length = 0 then 0
  else ((d.steps.getD []).map (fun s => s.volume.getD 0)).sum / ((d.steps.getD []).length : ℚ)

/-- Mean of the success values with a missing value counting as 0 (what the
code's `avg_success` computes, phrased as an arithmetic mean). -/
def meanSuccess (d : Doc) : ℚ :=
  if (d.steps.getD []).length = 0 then 0
  else ((d.steps.getD []).map (fun s => s.success.getD 0)).sum / ((d.steps.getD []).length : ℚ)

/-- A step dict which `normalize_flow` leaves untouched: every key present,
`phase`/`path` members of the enumerations. -/
def Filled (s : Step) : Prop :=
  s.id.isSome ∧ (∃ ph ∈ PHASES, s.phase = some ph) ∧ (∃ pa ∈ PATH_VARIANTS, s.path = some pa) ∧
    s.timeline.isSome ∧ s.volume.isSome ∧ s.success.isSome ∧ s.owner.isSome ∧ s.status.isSome

/-! Concrete documents used in counterexamples and witnesses. -/

/-- A concrete uuid supply for closed statements. -/
def freshDemo : Nat → String := fun n => toString n

/-- A document whose `"steps"` key holds the empty list. -/
def emptyDoc : Doc := { steps := some [] }

/-- A step that is not active. -/
def blockedStep : Step := { status := some "Blocked", success := some 50, volume := some 50 }

/-- Three steps, none of them active (`status = "Blocked"`). -/
def exDocC5 : Doc := { steps := some [blockedStep, blockedStep, blockedStep] }

/-- Two steps: one with `success = 80`, one with no `success` key. -/
def exDocC7 : Doc := { steps := some [{ success := some 80 }, {}] }

/-- Two steps: one with out-of-range `volume = 150`, one with no `volume` key. -/
def exDocC4 : Doc := { steps := some [{ volume := some 150 }, {}] }

/-- One step with an invalid phase and a non-zero order. -/
def exDocC9 : Doc := { steps := some [{ title := some "A", phase := some "X", order := some 5 }] }

/-- A messy document: invalid phase, missing ids, missing orders, an
out-of-range volume, order ties. -/
def exDocMessy : Doc :=
  { steps := some
      [ { title := some "B", phase := some "Execute & Adopt", order := some 7 },
        { title := some "A" },
        { title := some "C", phase := some "Bogus", volume := some 150, order := some 3 },
        { title := some "D", phase := some "Pilot & Initiate", id := some "d", order := some 3 },
        { title := some "E", phase := some "Pilot & Initiate", id := some "e" } ] }

/-- What the single step of `exDocC9` becomes after a save/load round trip:
the invalid phase is coerced and the order reassigned. -/
def exStepC9Res : Step :=
  { id := some "0", title := some "A", phase := some "Pilot & Initiate",
    path := some "Primary", description := none, timeline := some "",
    volume := some 0, success := some 0, owner := some "", status := some "Planned",
    order := some 0 }

/-- The first step of `exDocMessy` after the fill pass (id drawn from
`freshDemo`). -/
def exStepC2 : Step :=
  { id := some "0", title := some "B", phase := some "Execute & Adopt",
    path := some "Primary", description := none, timeline := some "",
    volume := some 0, success := some 0, owner := some "", status := some "Planned",
    order := some 7 }

/-- The first step of the normalized `exDocMessy` (title `C`, coerced phase,
preserved out-of-range volume). -/
def exStepC3 : Step :=
  { id := some "2", title := some "C", phase := some "Pilot & Initiate",
    path := some "Primary", description := none, timeline := some "",
    volume := some 150, success := some 0, owner := some "", status := some "Planned",
    order := some 0 }

/-- A fully normalized single step. -/
def exStepNormed : Step :=
  { id := some "s1", title := some "T", phase := some "Pilot & Initiate",
    path := some "Primary", description := some "", timeline := some "",
    volume := some 5, success := some 95, owner := some "", status := some "Planned",
    order := some 0 }

/-- A document `normalize_flow` fixes. -/
def exDocNormed : Doc := { steps := some [exStepNormed] }

/-- The legacy-`nodes` file whose single node has an unparseable
`success_rate`. -/
def badNodesFile : FileState :=
  .content (.dict none (some [{ success_rate := some (.str "n/a") }]))

/-! Theorems.  First some small facts about the embedded functions, then one
theorem (plus counterexample/witness where applicable) per claim. -/

theorem foldl_add_eq (l : List ℚ) : ∀ a : ℚ, l.foldl (· + ·) a = a + l.sum := by
  induction l with
  | nil => intro a; simp
  | cons b t ih => intro a; simp [List.foldl_cons, ih, add_assoc]

theorem pySum_eq_sum (l : List ℚ) : pySum l = l.sum := by
  simpa using foldl_add_eq l 0

theorem compute_metrics_fst (d : Doc) : (compute_metrics d).1 = (d.steps.getD []).length := rfl

/-! Facts about `pyEnum`. -/

theorem pyEnum_length : ∀ (n : Nat) (l : List Step), (pyEnum n l).length = l.length := by
  intro n l
  induction l generalizing n with
  | nil => rfl
  | cons s t ih => simp [pyEnum, ih]

theorem pyEnum_getElem? : ∀ (n : Nat) (l : List Step) (p : Nat),
    (pyEnum n l)[p]? = l[p]?.map (fun s => (n + p, s)) := by
  intro n l
  induction l generalizing n with
  | nil => intro p; simp [pyEnum]
  | cons s t ih =>
    intro p
    cases p with
    | zero => simp [pyEnum]
    | succ p' =>
      simp only [pyEnum, List.getElem?_cons_succ, ih (n + 1) p']
      cases t[p']? <;> simp [Nat.add_assoc, Nat.add_comm 1 p']

theorem pyEnum_map_snd_comp {α : Type} (g : Step → α) :
    ∀ (n : Nat) (l : List Step), (pyEnum n l).map (fun q => g q.2) = l.map g := by
  intro n l
  induction l generalizing n with
  | nil => rfl
  | cons s t ih => simp [pyEnum, ih]

theorem pyEnum_fst : ∀ (n : Nat) (l : List Step),
    (pyEnum n l).map Prod.fst = List.range' n l.length := by
  intro n l
  induction l generalizing n with
  | nil => rfl
  | cons s t ih => simp [pyEnum, List.range'_succ, ih]

theorem pyEnum_filter_fst_nodup (n : Nat) (l : List Step) (f : Nat × Step → Bool) :
    (((pyEnum n l).filter f).map Prod.fst).Nodup := by
  have hsub : List.Sublist (((pyEnum n l).filter f).map Prod.fst) ((pyEnum n l).map Prod.fst) :=
    (List.filter_sublist _).map Prod.fst
  have : ((pyEnum n l).map Prod.fst).Nodup := by
    rw [pyEnum_fst]; exact List.nodup_range' n l.length
  exact hsub.nodup this

theorem pyEnum_filter_map_snd (f : Step → Bool) :
    ∀ (n : Nat) (l : List Step),
    ((pyEnum n l).filter (fun q => f q.2)).map Prod.snd = l.filter f := by
  intro n l
  induction l generalizing n with
  | nil => rfl
  | cons s t ih =>
    simp only [pyEnum, List.filter_cons]
    cases hf : f s <;> simp [hf, List.filter_cons, ih]

/-! Facts about the first normalization pass (`fillSteps`). -/

theorem coercePhase_mem (p : Option String) : coercePhase p ∈ PHASES := by
  cases p with
  | none => decide
  | some v =>
    simp only [coercePhase]
    split
    · assumption
    · decide

theorem coercePath_mem (p : Option String) : coercePath p ∈ PATH_VARIANTS := by
  cases p with
  | none => decide
  | some v =>
    simp only [coercePath]
    split
    · assumption
    · decide

theorem coercePhase_of_mem {v : String} (h : v ∈ PHASES) : coercePhase (some v) = v := by
  simp [coercePhase, h]

theorem coercePath_of_mem {v : String} (h : v ∈ PATH_VARIANTS) : coercePath (some v) = v := by
  simp [coercePath, h]

theorem fillFields_filled (s : Step) (h : s.id.isSome) : Filled (fillFields s) := by
  refine ⟨h, ⟨coercePhase s.phase, coercePhase_mem _, rfl⟩,
    ⟨coercePath s.path, coercePath_mem _, rfl⟩, rfl, rfl, rfl, rfl, rfl⟩

theorem fillFields_eq_self {s : Step} (h : Filled s) : fillFields s = s := by
  obtain ⟨-, ⟨ph, hph, hphe⟩, ⟨pa, hpa, hpae⟩, ht, hv, hsu, ho, hst⟩ := h
  cases s with
  | mk id title phase path description timeline volume success owner status order =>
    simp only [Step.mk.injEq] at hphe hpae ⊢
    simp only [fillFields]
    simp_all [coercePhase_of_mem, coercePath_of_mem, Option.isSome_iff_exists]
    obtain ⟨t, rfl⟩ := ht
    obtain ⟨v, rfl⟩ := hv
    obtain ⟨su, rfl⟩ := hsu
    obtain ⟨o, rfl⟩ := ho
    obtain ⟨st, rfl⟩ := hst
    simp

theorem fillFields_id_update (s : Step) (x : Option String) :
    fillFields { s with id := x } = { fillFields s with id := x } := rfl

theorem fillSteps_length (fresh : Nat → String) :
    ∀ (n : Nat) (l : List Step), (fillSteps fresh n l).length = l.length := by
  intro n l
  induction l generalizing n with
  | nil => rfl
  | cons s t ih =>
    cases hid : s.id <;> simp [fillSteps, hid, ih]

theorem fillSteps_getElem? (fresh : Nat → String) :
    ∀ (n : Nat) (l : List Step) (p : Nat) (s : Step), l[p]? = some s →
    ∃ m, (fillSteps fresh n l)[p]? =
      some (fillFields (match s.id with
        | none => { s with id := some (fresh m) }
        | some _ => s)) := by
  intro n l
  induction l generalizing n with
  | nil => intro p s h; simp at h
  | cons a t ih =>
    intro p s h
    cases p with
    | zero =>
      simp only [List.getElem?_cons_zero, Option.some.injEq] at h
      subst h
      cases hid : a.id with
      | none => exact ⟨n, by simp [fillSteps, hid]⟩
      | some v => exact ⟨n, by simp [fillSteps, hid]⟩
    | succ p' =>
      simp only [List.getElem?_cons_succ] at h
      cases hid : a.id with
      | none =>
        obtain ⟨m, hm⟩ := ih (n + 1) p' s h
        exact ⟨m, by simp [fillSteps, hid, hm]⟩
      | some v =>
        obtain ⟨m, hm⟩ := ih n p' s h
        exact ⟨m, by simp [fillSteps, hid, hm]⟩

theorem fillSteps_mem_filled (fresh : Nat → String) :
    ∀ (n : Nat) (l : List Step) (s : Step), s ∈ fillSteps fresh n l → Filled s := by
  intro n l
  induction l generalizing n with
  | nil => intro s h; simp [fillSteps] at h
  | cons a t ih =>
    intro s h
    cases hid : a.id with
    | none =>
      simp only [fillSteps, hid, List.mem_cons] at h
      rcases h with h | h
      · subst h; exact fillFields_filled _ (by simp)
      · exact ih (n + 1) s h
    | some v =>
      simp only [fillSteps, hid, List.mem_cons] at h
      rcases h with h | h
      · subst h; exact fillFields_filled _ (by simp [hid])
      · exact ih n s h

theorem fillSteps_eq_self (fresh : Nat → String) :
    ∀ (n : Nat) (l : List Step), (∀ s ∈ l, Filled s) → fillSteps fresh n l = l := by
  intro n l
  induction l generalizing n with
  | nil => intro _; rfl
  | cons a t ih =>
    intro hall
    have ha : Filled a := hall a (by simp)
    have hid : ∃ v, a.id = some v := Option.isSome_iff_exists.mp ha.1
    obtain ⟨v, hv⟩ := hid
    simp [fillSteps, hv, fillFields_eq_self ha, ih (by exact n) (fun s hs => hall s (by simp [hs]))]

theorem fillSteps_map {α : Type} (g : Step → α)
    (hgid : ∀ (s : Step) (x : Option String), g { s with id := x } = g s)
    (fresh : Nat → String) :
    ∀ (n : Nat) (l : List Step),
    (fillSteps fresh n l).map g = l.map (fun s => g (fillFields s)) := by
  intro n l
  induction l generalizing n with
  | nil => rfl
  | cons a t ih =>
    cases hid : a.id with
    | none =>
      simp only [fillSteps, hid, List.map_cons, ih, fillFields_id_update, List.map]
      rw [hgid]
    | some v => simp [fillSteps, hid, ih]

/-! Facts about the second normalization pass (`assignPhase` / `assignOrders`). -/

theorem assignPhase_length (l : List Step) (ph : String) :
    (assignPhase l ph).length = l.length := by
  simp [assignPhase, pyEnum_length]

theorem assignPhase_getElem? (l : List Step) (ph : String) (p : Nat) :
    (assignPhase l ph)[p]? = (l[p]?).map (fun s =>
      if s.phase = some ph then
        { s with order := some (Int.ofNat (phaseRank l ph p)) }
      else s) := by
  simp only [assignPhase, List.getElem?_map, pyEnum_getElem?, Nat.zero_add]
  cases l[p]? <;> simp

theorem assignPhase_map_field {α : Type} (g : Step → α)
    (hg : ∀ (s : Step) (o : Option Int), g { s with order := o } = g s)
    (l : List Step) (ph : String) : (assignPhase l ph).map g = l.map g := by
  simp only [assignPhase, List.map_map]
  have he : ((fun q => g q.2) : Nat × Step → α) = (fun q =>
      g (if q.2.phase = some ph then
          { q.2 with order := some (Int.ofNat (phaseRank l ph q.1)) }
        else q.2)) := by
    funext q
    split
    · exact (hg q.2 _).symm
    · rfl
  rw [Function.comp_def, ← he, pyEnum_map_snd_comp]

theorem foldl_assignPhase_map_field {α : Type} (g : Step → α)
    (hg : ∀ (s : Step) (o : Option Int), g { s with order := o } = g s) :
    ∀ (phs : List String) (l : List Step), (phs.foldl assignPhase l).map g = l.map g := by
  intro phs
  induction phs with
  | nil => intro l; rfl
  | cons ph rest ih =>
    intro l
    simp only [List.foldl_cons, ih, assignPhase_map_field g hg]

theorem foldl_assignPhase_length :
    ∀ (phs : List String) (l : List Step), (phs.foldl assignPhase l).length = l.length := by
  intro phs
  induction phs with
  | nil => intro l; rfl
  | cons ph rest ih => intro l; simp only [List.foldl_cons, ih, assignPhase_length]

theorem assignOrders_length (l : List Step) : (assignOrders l).length = l.length :=
  foldl_assignPhase_length PHASES l

/-- If two lists agree pointwise on phases, and agree exactly on the steps of
phase `ph`, their enumerated phase-`ph` filters agree up to applying a
position-indexed update `F` on the second one. -/
theorem pyEnum_filter_rel (ph : String) (F : Nat → Step → Step) :
    ∀ (n : Nat) (l l' : List Step),
    l'.length = l.length →
    (∀ p s, l[p]? = some s → ∃ s', l'[p]? = some s' ∧ s'.phase = s.phase ∧
        (s.phase = some ph → s' = F (n + p) s)) →
    (pyEnum n l').filter (fun q => q.2.phase = some ph) =
      ((pyEnum n l).filter (fun q => q.2.phase = some ph)).map (fun q => (q.1, F q.1 q.2)) := by
  intro n l
  induction l generalizing n with
  | nil =>
    intro l' hlen _
    cases l' with
    | nil => rfl
    | cons b t' => simp at hlen
  | cons a t ih =>
    intro l' hlen hrel
    cases l' with
    | nil => simp at hlen
    | cons b t' =>
      obtain ⟨b', hb', hphase, hFa⟩ := hrel 0 a (by simp)
      simp only [List.getElem?_cons_zero, Option.some.injEq] at hb'
      subst hb'
      have hlen' : t'.length = t.length := by simpa using hlen
      have hrel' : ∀ p s, t[p]? = some s → ∃ s', t'[p]? = some s' ∧ s'.phase = s.phase ∧
          (s.phase = some ph → s' = F (n + 1 + p) s) := by
        intro p s hs
        obtain ⟨s', h1, h2, h3⟩ := hrel (p + 1) s (by simpa using hs)
        refine ⟨s', by simpa using h1, h2, fun hp => ?_⟩
        rw [h3 hp]
        congr 1
        omega
      by_cases hpa : a.phase = some ph
      · have hb : b.phase = some ph := by rw [hphase, hpa]
        have hFa' : b = F n a := by simpa using hFa hpa
        subst hFa'
        simp [pyEnum, List.filter_cons, hpa, hb, ih (n + 1) t' hlen' hrel']
      · have hb : ¬b.phase = some ph := by rw [hphase]; exact hpa
        simp [pyEnum, List.filter_cons, hpa, hb, ih (n + 1) t' hlen' hrel']

/-- The phase group (and hence the assigned rank) only depends on the phases
of the steps and on the steps of the given phase. -/
theorem phaseGroup_congr (ph : String) (l₀ l : List Step)
    (hlen : l.length = l₀.length)
    (hrel : ∀ (p : Nat) (s₀ s : Step), l₀[p]? = some s₀ → l[p]? = some s →
        s.phase = s₀.phase ∧ (s₀.phase = some ph → s = s₀)) :
    phaseGroup l ph = phaseGroup l₀ ph := by
  unfold phaseGroup
  have h := pyEnum_filter_rel ph (fun _ s => s) 0 l₀ l hlen ?_
  · rw [h]
    congr 1
    simp
  · intro p s₀ h₀
    obtain ⟨hlt₀, -⟩ := List.getElem?_eq_some_iff.mp h₀
    have hlt : p < l.length := by rw [hlen]; exact hlt₀
    have hs := List.getElem?_eq_getElem hlt
    exact ⟨_, hs, (hrel p s₀ _ h₀ hs).1, fun hp => (hrel p s₀ _ h₀ hs).2 hp⟩

/-- Characterization of the `for phase in PHASES` loop at each position: a
step whose phase is among the (not yet processed, distinct) phases gets the
rank computed from the reference list `l₀`; any other step keeps its current
value. -/
theorem foldl_assignPhase_getElem? :
    ∀ (phs : List String) (l₀ l : List Step),
    phs.Nodup →
    l.length = l₀.length →
    (∀ (p : Nat) (s₀ s : Step), l₀[p]? = some s₀ → l[p]? = some s →
        s.phase = s₀.phase ∧ (∀ ph ∈ phs, s₀.phase = some ph → s = s₀)) →
    ∀ (p : Nat) (s₀ s : Step), l₀[p]? = some s₀ → l[p]? = some s →
    (phs.foldl assignPhase l)[p]? = some (
      match s₀.phase with
      | some ph => if ph ∈ phs then
          { s₀ with order := some (Int.ofNat (phaseRank l₀ ph p)) } else s
      | none => s) := by
  intro phs
  induction phs with
  | nil =>
    intro l₀ l _ _ _ p s₀ s h₀ h
    simp only [List.foldl_nil, h]
    cases hph : s₀.phase with
    | none => rfl
    | some ph => simp
  | cons ph rest ih =>
    intro l₀ l hnd hlen hrel p s₀ s h₀ h
    have hndr : rest.Nodup := hnd.of_cons
    have hphr : ph ∉ rest := by
      have := List.nodup_cons.mp hnd
      exact this.1
    simp only [List.foldl_cons]
    have hlen' : (assignPhase l ph).length = l₀.length := by
      rw [assignPhase_length, hlen]
    have hgrp : phaseGroup l ph = phaseGroup l₀ ph := by
      apply phaseGroup_congr ph l₀ l hlen
      intro p' s₀' s' h₀' h'
      exact ⟨(hrel p' s₀' s' h₀' h').1,
        fun hp => (hrel p' s₀' s' h₀' h').2 ph (by simp) hp⟩
    have hrank : phaseRank l ph = phaseRank l₀ ph := by
      funext p'
      simp only [phaseRank, hgrp]
    have hval : (assignPhase l ph)[p]? = some (
        if s.phase = some ph then
          { s with order := some (Int.ofNat (phaseRank l ph p)) } else s) := by
      rw [assignPhase_getElem?, h]; rfl
    have hrel' : ∀ (p' : Nat) (s₀' s'' : Step), l₀[p']? = some s₀' →
        (assignPhase l ph)[p']? = some s'' →
        s''.phase = s₀'.phase ∧ (∀ ph' ∈ rest, s₀'.phase = some ph' → s'' = s₀') := by
      intro p' s₀' s'' h₀' h''
      rw [assignPhase_getElem?] at h''
      cases hu : l[p']? with
      | none => rw [hu] at h''; simp at h''
      | some u =>
        rw [hu] at h''
        simp only [Option.map_some', Option.some.injEq] at h''
        have hbase := hrel p' s₀' u h₀' hu
        constructor
        · rw [← h'']
          split
          · exact hbase.1
          · exact hbase.1
        · intro ph' hph' hp
          have hne : ph' ≠ ph := fun hcontra => hphr (hcontra ▸ hph')
          have hu' : u = s₀' := hbase.2 ph' (by simp [hph']) hp
          have hup : ¬u.phase = some ph := by
            rw [hu', hp]
            simp [hne]
          rw [← h'', if_neg hup, hu']
    have hfold := ih l₀ (assignPhase l ph) hndr hlen' hrel' p s₀ _ h₀ hval
    rw [hfold]
    have hphase_eq := (hrel p s₀ s h₀ h).1
    cases hph : s₀.phase with
    | none =>
      have hsph : ¬s.phase = some ph := by rw [hphase_eq, hph]; simp
      simp [hsph]
    | some ph'' =>
      by_cases hc : ph'' = ph
      · subst hc
        have hsph : s.phase = some ph'' := by rw [hphase_eq, hph]
        have hseq : s = s₀ := (hrel p s₀ s h₀ h).2 ph'' (by simp) hph
        simp [hphr, hsph, hseq, hrank, hph]
      · have hsph : ¬s.phase = some ph := by rw [hphase_eq, hph]; simp [hc]
        by_cases hcr : ph'' ∈ rest
        · simp [hsph, hcr, hc]
        · simp [hsph, hcr, hc]

/-- Order assignment on a list whose phases are all valid: the step at
position `p` gets exactly its rank in its phase group as its new order. -/
theorem assignOrders_getElem? (l : List Step)
    (hl : ∀ s ∈ l, ∃ ph ∈ PHASES, s.phase = some ph)
    (p : Nat) (s : Step) (h : l[p]? = some s) :
    (assignOrders l)[p]? =
      some { s with order := some (Int.ofNat (phaseRank l (s.phase.getD "") p)) } := by
  have hchar := foldl_assignPhase_getElem? PHASES l l (by decide) rfl
    (fun p' s₀ s' h₀ h' => by
      rw [h₀] at h'
      cases h'
      exact ⟨rfl, fun _ _ _ => rfl⟩) p s s h h
  obtain ⟨ph, hmem, hph⟩ := hl s (List.getElem?_mem h)
  rw [assignOrders, hchar, hph]
  simp [hmem]

/-! The two sort relations are total preorders, so insertion sort (= the
stable sort) yields sorted output. -/

instance : IsTrans (Nat × Step) gle :=
  ⟨fun _ _ _ hab hbc => le_trans hab hbc⟩

instance : IsTotal (Nat × Step) gle :=
  ⟨fun a b => le_total (orderKey a.2) (orderKey b.2)⟩

instance : IsTrans Step finalLe :=
  ⟨fun _ _ _ hab hbc => le_trans hab hbc⟩

instance : IsTotal Step finalLe :=
  ⟨fun a b => le_total (toLex (finalKey a)) (toLex (finalKey b))⟩

theorem sortSteps_perm (l : List Step) : (sortSteps l).Perm l :=
  List.perm_insertionSort finalLe l

theorem sortSteps_sorted (l : List Step) : List.Sorted finalLe (sortSteps l) :=
  List.sorted_insertionSort finalLe l

theorem sortSteps_eq_of_sorted {l : List Step} (h : List.Sorted finalLe l) :
    sortSteps l = l :=
  h.insertionSort_eq

theorem phaseGroup_perm (l : List Step) (ph : String) :
    (phaseGroup l ph).Perm ((pyEnum 0 l).filter (fun q => q.2.phase = some ph)) :=
  List.perm_insertionSort gle _

theorem phaseGroup_fst_nodup (l : List Step) (ph : String) :
    ((phaseGroup l ph).map Prod.fst).Nodup := by
  have hperm := (phaseGroup_perm l ph).map Prod.fst
  exact hperm.nodup_iff.mpr (pyEnum_filter_fst_nodup 0 l _)

/-! Ranks: `findIdx` of the distinct positions enumerates the group. -/

theorem findIdx_fst_of_getElem? :
    ∀ (g : List (Nat × Step)), (g.map Prod.fst).Nodup →
    ∀ (j : Nat) (q : Nat × Step), g[j]? = some q →
    g.findIdx (fun r => r.1 == q.1) = j := by
  intro g
  induction g with
  | nil => intro _ j q h; simp at h
  | cons a t ih =>
    intro hnd j q h
    have hnd' : (t.map Prod.fst).Nodup := (List.nodup_cons.mp hnd).2
    cases j with
    | zero =>
      simp only [List.getElem?_cons_zero, Option.some.injEq] at h
      subst h
      simp [List.findIdx_cons]
    | succ j' =>
      simp only [List.getElem?_cons_succ] at h
      have hq : q ∈ t := List.getElem?_mem h
      have hne : a.1 ≠ q.1 := by
        intro hcontra
        exact (List.nodup_cons.mp hnd).1 (hcontra ▸ List.mem_map_of_mem Prod.fst hq)
      simp only [List.findIdx_cons]
      have : (a.1 == q.1) = false := by simp [hne]
      simp [this, ih hnd' j' q h]

theorem phaseRank_of_group_getElem? (l : List Step) (ph : String) (j : Nat)
    (q : Nat × Step) (h : (phaseGroup l ph)[j]? = some q) :
    phaseRank l ph q.1 = j :=
  findIdx_fst_of_getElem? (phaseGroup l ph) (phaseGroup_fst_nodup l ph) j q h

/-- Mapping every group element to its own rank enumerates `0..k-1`. -/
theorem phaseGroup_map_rank (l : List Step) (ph : String) :
    (phaseGroup l ph).map (fun q => phaseRank l ph q.1) =
      List.range (phaseGroup l ph).length := by
  apply List.ext_getElem?
  intro j
  rw [List.getElem?_map]
  by_cases hj : j < (phaseGroup l ph).length
  · have hq := List.getElem?_eq_getElem hj
    rw [hq]
    simp only [Option.map_some']
    rw [List.getElem?_range hj, phaseRank_of_group_getElem? l ph j _ hq]
  · rw [List.getElem?_eq_none (by omega), List.getElem?_eq_none (by simp [List.length_range]; omega)]
    rfl

/-- A step field untouched by the order assignment and by the id assignment
is, as a multiset over the steps, exactly the fill-pass image of the input. -/
theorem normalize_map_field_perm {α : Type} (g : Step → α)
    (hgo : ∀ (s : Step) (o : Option Int), g { s with order := o } = g s)
    (hgid : ∀ (s : Step) (x : Option String), g { s with id := x } = g s)
    (fresh : Nat → String) (d : Doc) :
    (((normalize_flow fresh d).steps.getD []).map g).Perm
      ((d.steps.getD []).map (fun s => g (fillFields s))) := by
  have h1 : ((normalize_flow fresh d).steps.getD []) =
      sortSteps (assignOrders (fillSteps fresh 0 (d.steps.getD []))) := rfl
  rw [h1]
  have h2 := (sortSteps_perm (assignOrders (fillSteps fresh 0 (d.steps.getD [])))).map g
  have h3 : (assignOrders (fillSteps fresh 0 (d.steps.getD []))).map g =
      (fillSteps fresh 0 (d.steps.getD [])).map g :=
    foldl_assignPhase_map_field g hgo PHASES _
  have h4 : (fillSteps fresh 0 (d.steps.getD [])).map g =
      (d.steps.getD []).map (fun s => g (fillFields s)) :=
    fillSteps_map g hgid fresh 0 _
  rw [h3, h4] at h2
  exact h2

/-- Every step of a normalized document comes from the fill pass with only
its order rewritten, hence is `Filled`. -/
theorem normalize_mem_filled (fresh : Nat → String) (d : Doc) (s : Step)
    (h : s ∈ (normalize_flow fresh d).steps.getD []) : Filled s := by
  have h1 : s ∈ assignOrders (fillSteps fresh 0 (d.steps.getD [])) :=
    ((sortSteps_perm _).mem_iff).mp h
  obtain ⟨p, hp⟩ := List.mem_iff_getElem?.mp h1
  have hlen : p < (fillSteps fresh 0 (d.steps.getD [])).length := by
    have := (List.getElem?_eq_some_iff.mp hp).1
    rwa [assignOrders_length] at this
  have h₀ := List.getElem?_eq_getElem hlen
  have hl : ∀ t ∈ fillSteps fresh 0 (d.steps.getD []), ∃ ph ∈ PHASES, t.phase = some ph :=
    fun t ht => (fillSteps_mem_filled fresh 0 _ t ht).2.1
  have hchar := assignOrders_getElem? _ hl p _ h₀
  rw [hchar] at hp
  cases hp
  have hfill := fillSteps_mem_filled fresh 0 (d.steps.getD []) _ (List.getElem?_mem h₀)
  obtain ⟨hid, ⟨ph, hmem, hph⟩, ⟨pa, hpamem, hpa⟩, ht, hv, hsu, ho, hst⟩ := hfill
  exact ⟨hid, ⟨ph, hmem, hph⟩, ⟨pa, hpamem, hpa⟩, ht, hv, hsu, ho, hst⟩

/-- Every step of a normalized document has an assigned (present) order. -/
theorem normalize_mem_order_isSome (fresh : Nat → String) (d : Doc) (s : Step)
    (h : s ∈ (normalize_flow fresh d).steps.getD []) : s.order.isSome := by
  have h1 : s ∈ assignOrders (fillSteps fresh 0 (d.steps.getD [])) :=
    ((sortSteps_perm _).mem_iff).mp h
  obtain ⟨p, hp⟩ := List.mem_iff_getElem?.mp h1
  have hlen : p < (fillSteps fresh 0 (d.steps.getD [])).length := by
    have := (List.getElem?_eq_some_iff.mp hp).1
    rwa [assignOrders_length] at this
  have h₀ := List.getElem?_eq_getElem hlen
  have hl : ∀ t ∈ fillSteps fresh 0 (d.steps.getD []), ∃ ph ∈ PHASES, t.phase = some ph :=
    fun t ht => (fillSteps_mem_filled fresh 0 _ t ht).2.1
  have hchar := assignOrders_getElem? _ hl p _ h₀
  rw [hchar] at hp
  cases hp
  rfl

/-- Lifting a `getD`-level equation on orders to the orders themselves, given
they are all present. -/
theorem map_order_eq_of_getD :
    ∀ (L : List Step) (v : List Int), (∀ s ∈ L, s.order.isSome) →
    L.map (fun s => s.order.getD 0) = v → L.map Step.order = v.map some := by
  intro L
  induction L with
  | nil =>
    intro v _ hv
    simp only [List.map_nil] at hv ⊢
    rw [← hv]
    rfl
  | cons a t ih =>
    intro v hsome hv
    cases v with
    | nil => simp at hv
    | cons b w =>
      simp only [List.map_cons, List.cons.injEq] at hv ⊢
      obtain ⟨hab, htw⟩ := hv
      refine ⟨?_, ih w (fun s hs => hsome s (by simp [hs])) htw⟩
      have ha := hsome a (by simp)
      obtain ⟨o, ho⟩ := Option.isSome_iff_exists.mp ha
      rw [ho] at hab ⊢
      simp only [Option.getD_some] at hab
      rw [hab]

/-- Sortedness of the final list gives sortedness of the orders within one
phase group. -/
theorem sorted_filter_orders (L : List Step) (ph : String)
    (h : List.Sorted finalLe L) :
    List.Pairwise (fun a b : Int => a ≤ b)
      ((L.filter (fun s => decide (s.phase = some ph))).map (fun s => s.order.getD 0)) := by
  have hs : List.Sorted finalLe (L.filter (fun s => decide (s.phase = some ph))) :=
    h.filter _
  rw [List.pairwise_map]
  refine hs.imp_of_mem ?_
  intro a b ha hb hab
  have hpa : a.phase = some ph := by
    have := (List.mem_filter.mp ha).2
    simpa using this
  have hpb : b.phase = some ph := by
    have := (List.mem_filter.mp hb).2
    simpa using this
  have hidx : phaseIdx a = phaseIdx b := by simp [phaseIdx, hpa, hpb]
  have hlex := (Prod.Lex.le_iff (finalKey a) (finalKey b)).mp hab
  rcases hlex with hlt | ⟨-, hle⟩
  · exfalso
    have : phaseIdx a < phaseIdx b := hlt
    omega
  · exact hle

/-- The list `0, 1, 2, ...` cast to `Int` is weakly sorted. -/
theorem sorted_range_ofNat (K : Nat) :
    List.Pairwise (fun a b : Int => a ≤ b)
      ((List.range K).map (fun i => (Int.ofNat i))) := by
  rw [List.pairwise_map]
  refine (List.pairwise_lt_range K).imp ?_
  intro i j hij
  exact Int.ofNat_le.mpr (Nat.le_of_lt hij)

/-- In a normalized document the orders of the steps of any one phase, read
in list position order, are exactly `0, 1, ..., k-1`. -/
theorem normalize_filter_orders (fresh : Nat → String) (d : Doc) (ph : String) :
    (((normalize_flow fresh d).steps.getD []).filter
        (fun s => decide (s.phase = some ph))).map Step.order =
      (List.range (((normalize_flow fresh d).steps.getD []).filter
        (fun s => decide (s.phase = some ph))).length).map (fun i => some (Int.ofNat i)) := by
  set l := d.steps.getD [] with hl
  set l₀ := fillSteps fresh 0 l with hl₀
  set l₂ := assignOrders l₀ with hl₂
  have hnorm : (normalize_flow fresh d).steps.getD [] = sortSteps l₂ := rfl
  have hvalid : ∀ t ∈ l₀, ∃ ph' ∈ PHASES, t.phase = some ph' :=
    fun t ht => (fillSteps_mem_filled fresh 0 _ t ht).2.1
  -- the enumerated phase filter of l₂ is that of l₀ with the ranks written in
  have hb : (pyEnum 0 l₂).filter (fun q => q.2.phase = some ph) =
      ((pyEnum 0 l₀).filter (fun q => q.2.phase = some ph)).map
        (fun q => (q.1, { q.2 with order := some (Int.ofNat (phaseRank l₀ ph q.1)) })) := by
    apply pyEnum_filter_rel ph
      (fun p s => { s with order := some (Int.ofNat (phaseRank l₀ ph p)) }) 0 l₀ l₂
      (assignOrders_length l₀)
    intro p s h
    refine ⟨_, assignOrders_getElem? l₀ hvalid p s h, rfl, fun hp => ?_⟩
    rw [hp]
    simp
  -- orders of the l₂ filter, as a multiset, are 0..k-1
  have hc : (l₂.filter (fun s => decide (s.phase = some ph))).map Step.order =
      ((pyEnum 0 l₀).filter (fun q => q.2.phase = some ph)).map
        (fun q => some (Int.ofNat (phaseRank l₀ ph q.1))) := by
    rw [← pyEnum_filter_map_snd (fun s => decide (s.phase = some ph)) 0 l₂, List.map_map]
    rw [hb, List.map_map]
    rfl
  have hd : (((pyEnum 0 l₀).filter (fun q => q.2.phase = some ph)).map
      (fun q => some (Int.ofNat (phaseRank l₀ ph q.1)))).Perm
      ((List.range (phaseGroup l₀ ph).length).map (fun i => some (Int.ofNat i))) := by
    have hperm := ((phaseGroup_perm l₀ ph).symm).map
      (fun q => some (Int.ofNat (phaseRank l₀ ph q.1)))
    have hg : (phaseGroup l₀ ph).map (fun q => some (Int.ofNat (phaseRank l₀ ph q.1))) =
        ((List.range (phaseGroup l₀ ph).length).map (fun i => some (Int.ofNat i))) := by
      rw [← phaseGroup_map_rank l₀ ph, List.map_map]
      rfl
    rw [hg] at hperm
    exact hperm
  -- transport to the sorted list l₁
  have hfperm : ((sortSteps l₂).filter (fun s => decide (s.phase = some ph))).Perm
      (l₂.filter (fun s => decide (s.phase = some ph))) :=
    (sortSteps_perm l₂).filter _
  have hAperm : (((sortSteps l₂).filter (fun s => decide (s.phase = some ph))).map Step.order).Perm
      ((List.range (phaseGroup l₀ ph).length).map (fun i => some (Int.ofNat i))) := by
    refine (hfperm.map Step.order).trans ?_
    rw [hc]
    exact hd
  -- lengths
  have hKlen : ((sortSteps l₂).filter (fun s => decide (s.phase = some ph))).length =
      (phaseGroup l₀ ph).length := by
    have := hAperm.length_eq
    simpa using this
  -- the getD values are sorted and a permutation of the range, hence equal
  have hCperm : (((sortSteps l₂).filter (fun s => decide (s.phase = some ph))).map
      (fun s => s.order.getD 0)).Perm
      ((List.range (phaseGroup l₀ ph).length).map (fun i => (Int.ofNat i))) := by
    have := hAperm.map (fun o : Option Int => o.getD 0)
    rw [List.map_map, List.map_map] at this
    exact this
  have hCsorted := sorted_filter_orders (sortSteps l₂) ph (sortSteps_sorted l₂)
  have hCeq : ((sortSteps l₂).filter (fun s => decide (s.phase = some ph))).map
      (fun s => s.order.getD 0) =
      ((List.range (phaseGroup l₀ ph).length).map (fun i => (Int.ofNat i))) :=
    List.eq_of_perm_of_sorted hCperm hCsorted (sorted_range_ofNat _)
  -- all orders present
  have hsome : ∀ s ∈ (sortSteps l₂).filter (fun s => decide (s.phase = some ph)),
      s.order.isSome := by
    intro s hs
    exact normalize_mem_order_isSome fresh d s (List.mem_of_mem_filter hs)
  have hA := map_order_eq_of_getD _ _ hsome hCeq
  rw [hnorm, hA, hKlen, List.map_map]
  rfl

/-- On an already-normalized list, one iteration of the order-assignment loop
changes nothing: within each phase the orders are already `0..k-1` in stable
sort position. -/
theorem normalize_assignPhase_fix (fresh : Nat → String) (d : Doc) (ph : String) :
    assignPhase ((normalize_flow fresh d).steps.getD []) ph =
      (normalize_flow fresh d).steps.getD [] := by
  set l₁ := (normalize_flow fresh d).steps.getD [] with hl₁
  set E₁ := (pyEnum 0 l₁).filter (fun q => q.2.phase = some ph) with hE₁
  have hsnd : E₁.map Prod.snd = l₁.filter (fun s => decide (s.phase = some ph)) :=
    pyEnum_filter_map_snd (fun s => decide (s.phase = some ph)) 0 l₁
  have hlenE : E₁.length = (l₁.filter (fun s => decide (s.phase = some ph))).length := by
    rw [← hsnd, List.length_map]
  have hordE : E₁.map (fun q => q.2.order) =
      (List.range E₁.length).map (fun i => some (Int.ofNat i)) := by
    have h := normalize_filter_orders fresh d ph
    rw [← hl₁] at h
    calc E₁.map (fun q => q.2.order)
        = (E₁.map Prod.snd).map Step.order := by rw [List.map_map]; rfl
      _ = (List.range E₁.length).map (fun i => some (Int.ofNat i)) := by
          rw [hsnd, h, hlenE]
  have hkeys : E₁.map (fun q => orderKey q.2) =
      (List.range E₁.length).map (fun i => (Int.ofNat i)) := by
    have h1 : E₁.map (fun q => orderKey q.2) =
        (E₁.map (fun q => q.2.order)).map (fun o => o.getD 9999) := by
      rw [List.map_map]; rfl
    rw [h1, hordE, List.map_map]
    rfl
  have hsortE : List.Pairwise gle E₁ := by
    have hp : List.Pairwise (fun a b : Int => a ≤ b) (E₁.map (fun q => orderKey q.2)) := by
      rw [hkeys]; exact sorted_range_ofNat _
    rw [List.pairwise_map] at hp
    exact hp
  have hgroup : phaseGroup l₁ ph = E₁ :=
    (List.Sorted.insertionSort_eq hsortE : List.insertionSort gle E₁ = E₁)
  apply List.ext_getElem?
  intro p
  rw [assignPhase_getElem?]
  cases hsp : l₁[p]? with
  | none => rfl
  | some s =>
    simp only [Option.map_some']
    by_cases hphs : s.phase = some ph
    · rw [if_pos hphs]
      have hmemE : (p, s) ∈ E₁ := by
        have h1 : (pyEnum 0 l₁)[p]? = some (p, s) := by
          rw [pyEnum_getElem?, hsp]
          simp
        exact List.mem_filter.mpr ⟨List.getElem?_mem h1, by simp [hphs]⟩
      obtain ⟨j, hj⟩ := List.mem_iff_getElem?.mp hmemE
      have hrank : phaseRank l₁ ph p = j := by
        have hfind := findIdx_fst_of_getElem? E₁ (pyEnum_filter_fst_nodup 0 l₁ _) j (p, s) hj
        rw [phaseRank, hgroup]
        exact hfind
      have hjlt : j < E₁.length := (List.getElem?_eq_some_iff.mp hj).1
      have hord : s.order = some (Int.ofNat j) := by
        have h1 : (E₁.map (fun q => q.2.order))[j]? = some s.order := by
          rw [List.getElem?_map, hj]
          rfl
        rw [hordE, List.getElem?_map, List.getElem?_range hjlt] at h1
        simpa using h1.symm
      rw [hrank, ← hord]
    · rw [if_neg hphs]

theorem foldl_assignPhase_fix :
    ∀ (phs : List String) (l : List Step),
    (∀ ph ∈ phs, assignPhase l ph = l) → phs.foldl assignPhase l = l := by
  intro phs
  induction phs with
  | nil => intro l _; rfl
  | cons ph rest ih =>
    intro l h
    simp only [List.foldl_cons, h ph (by simp)]
    exact ih l (fun ph' h' => h ph' (by simp [h']))

/-- C1: `normalize_flow` is idempotent — normalizing an already normalized
document (whatever uuid supply is used the second time) changes nothing, for
every document, including ones with missing ids, invalid phases and
out-of-range volumes. -/
theorem C1_normalize_idempotent (fresh fresh' : Nat → String) (d : Doc) :
    normalize_flow fresh' (normalize_flow fresh d) = normalize_flow fresh d := by
  have hfill : fillSteps fresh' 0 ((normalize_flow fresh d).steps.getD []) =
      (normalize_flow fresh d).steps.getD [] :=
    fillSteps_eq_self fresh' 0 _ (fun s hs => normalize_mem_filled fresh d s hs)
  have horders : assignOrders ((normalize_flow fresh d).steps.getD []) =
      (normalize_flow fresh d).steps.getD [] :=
    foldl_assignPhase_fix PHASES _ (fun ph _ => normalize_assignPhase_fix fresh d ph)
  have hsorted : List.Sorted finalLe ((normalize_flow fresh d).steps.getD []) :=
    sortSteps_sorted (assignOrders (fillSteps fresh 0 (d.steps.getD [])))
  have hsort : sortSteps ((normalize_flow fresh d).steps.getD []) =
      (normalize_flow fresh d).steps.getD [] :=
    sortSteps_eq_of_sorted hsorted
  have hsteps : normalizeSteps fresh' ((normalize_flow fresh d).steps.getD []) =
      (normalize_flow fresh d).steps.getD [] := by
    rw [normalizeSteps, hfill, horders, hsort]
  show ({ steps := some (normalizeSteps fresh' ((normalize_flow fresh d).steps.getD [])) } : Doc)
      = normalize_flow fresh d
  rw [hsteps]
  rfl

/-- C1 [witness]: idempotence at the concrete messy document. -/
theorem C1_idempotent_witness :
    normalize_flow freshDemo (normalize_flow freshDemo exDocMessy) =
      normalize_flow freshDemo exDocMessy :=
  C1_normalize_idempotent freshDemo freshDemo exDocMessy

/-- C3: after `normalize_flow` every step's phase is one of the four fixed
phases and every step's path one of the four fixed path variants; the
multiset of phases is the input phases coerced (missing/invalid to the first
phase `"Pilot & Initiate"`) and the multiset of paths the input paths coerced
(missing/invalid to `"Primary"`). -/
theorem C3_phase_path_closed (fresh : Nat → String) (d : Doc) :
    (∀ s ∈ (normalize_flow fresh d).steps.getD [],
      (∃ ph ∈ PHASES, s.phase = some ph) ∧ (∃ pa ∈ PATH_VARIANTS, s.path = some pa)) ∧
    (((normalize_flow fresh d).steps.getD []).map Step.phase).Perm
      ((d.steps.getD []).map (fun s => some (coercePhase s.phase))) ∧
    (((normalize_flow fresh d).steps.getD []).map Step.path).Perm
      ((d.steps.getD []).map (fun s => some (coercePath s.path))) ∧
    (∀ p : Option String, (p = none ∨ ∃ v, p = some v ∧ v ∉ PHASES) →
      coercePhase p = "Pilot & Initiate") ∧
    (∀ p : Option String, (p = none ∨ ∃ v, p = some v ∧ v ∉ PATH_VARIANTS) →
      coercePath p = "Primary") := by
  refine ⟨?_, ?_, ?_, ?_, ?_⟩
  · intro s hs
    have hf := normalize_mem_filled fresh d s hs
    exact ⟨hf.2.1, hf.2.2.1⟩
  · exact normalize_map_field_perm Step.phase (fun _ _ => rfl) (fun _ _ => rfl) fresh d
  · exact normalize_map_field_perm Step.path (fun _ _ => rfl) (fun _ _ => rfl) fresh d
  · intro p hp
    rcases hp with rfl | ⟨v, rfl, hv⟩
    · rfl
    · simp [coercePhase, hv]
  · intro p hp
    rcases hp with rfl | ⟨v, rfl, hv⟩
    · rfl
    · simp [coercePath, hv]

/-- C3 [witness]: the invariant applied to a concrete member of the
normalized messy document. -/
theorem C3_witness :
    (∃ ph ∈ PHASES, exStepC3.phase = some ph) ∧
    (∃ pa ∈ PATH_VARIANTS, exStepC3.path = some pa) :=
  (C3_phase_path_closed freshDemo exDocMessy).1 exStepC3 (by decide)

/-- C4 [amended]: after `normalize_flow` the multiset of volume values is the
input volumes with a missing value defaulted to 0 and every present value —
in particular an out-of-range one — preserved unchanged: no clamping to
`[0,100]` and no defaulting to 100 happens. -/
theorem C4_volume_default_no_clamp (fresh : Nat → String) (d : Doc) :
    (((normalize_flow fresh d).steps.getD []).map Step.volume).Perm
      ((d.steps.getD []).map (fun s => some (s.volume.getD 0))) :=
  normalize_map_field_perm Step.volume (fun _ _ => rfl) (fun _ _ => rfl) fresh d

/-- C4 [witness]: the amended statement at the concrete document with
`volume = 150` and a missing volume. -/
theorem C4_volume_witness :
    (((normalize_flow freshDemo exDocC4).steps.getD []).map Step.volume).Perm
      ((exDocC4.steps.getD []).map (fun s => some (s.volume.getD 0))) :=
  C4_volume_default_no_clamp freshDemo exDocC4

/-- C2: `normalize_flow` is the stable sort (by phase index, then order) of
the fill pass followed by the per-phase order assignment: the output is a
permutation of the field-updated steps (so no step is dropped or
duplicated — titles, in particular, are preserved as a multiset); the fill
pass is positional (each output step is its input step with defaults filled
and, when absent, a fresh id); each step's new order is its index
(`phaseRank`) within the same-phase steps sorted stably by their existing
order (missing orders sorting as 9999, ties broken by original position);
and the final list is sorted by `(phase index, order)`. -/
theorem C2_normalize_structure (fresh : Nat → String) (d : Doc) :
    ((normalize_flow fresh d).steps.getD []).Perm
      (assignOrders (fillSteps fresh 0 (d.steps.getD []))) ∧
    (fillSteps fresh 0 (d.steps.getD [])).length = (d.steps.getD []).length ∧
    (∀ (p : Nat) (s : Step), (d.steps.getD [])[p]? = some s → ∃ m,
      (fillSteps fresh 0 (d.steps.getD []))[p]? = some (fillFields
        (match s.id with
         | none => { s with id := some (fresh m) }
         | some _ => s))) ∧
    (∀ (p : Nat) (s : Step), (fillSteps fresh 0 (d.steps.getD []))[p]? = some s →
      (assignOrders (fillSteps fresh 0 (d.steps.getD [])))[p]? =
        some { s with order := some (Int.ofNat
          (phaseRank (fillSteps fresh 0 (d.steps.getD [])) (s.phase.getD "") p)) }) ∧
    (((normalize_flow fresh d).steps.getD []).map Step.title).Perm
      ((d.steps.getD []).map Step.title) ∧
    List.Sorted finalLe ((normalize_flow fresh d).steps.getD []) := by
  refine ⟨sortSteps_perm _, fillSteps_length fresh 0 _, ?_, ?_, ?_, sortSteps_sorted _⟩
  · intro p s h
    exact fillSteps_getElem? fresh 0 _ p s h
  · intro p s h
    exact assignOrders_getElem? _
      (fun t ht => (fillSteps_mem_filled fresh 0 _ t ht).2.1) p s h
  · have h := normalize_map_field_perm Step.title (fun _ _ => rfl) (fun _ _ => rfl) fresh d
    exact h

/-- C2 [witness]: the order-assignment characterization applied to the
concrete filled step at position 0 of the messy document. -/
theorem C2_witness :
    (assignOrders (fillSteps freshDemo 0 (exDocMessy.steps.getD [])))[0]? =
      some { exStepC2 with order := some (Int.ofNat
        (phaseRank (fillSteps freshDemo 0 (exDocMessy.steps.getD []))
          (exStepC2.phase.getD "") 0)) } :=
  (C2_normalize_structure freshDemo exDocMessy).2.2.2.1 0 exStepC2 (by decide)

/-- C5 [counterexample]: on a document whose three steps are all `Blocked`,
the claimed `active_count` is 0, but no component of what `compute_metrics`
returns equals it — the code computes no active count at all (it returns
`(total, avg_success, avg_volume)`). -/
theorem C5_counterexample :
    specActiveCount exDocC5 = 0 ∧
    (compute_metrics exDocC5).1 ≠ specActiveCount exDocC5 ∧
    (compute_metrics exDocC5).2.1 ≠ (specActiveCount exDocC5 : ℚ) ∧
    (compute_metrics exDocC5).2.2 ≠ (specActiveCount exDocC5 : ℚ) := by
  have hA : specActiveCount exDocC5 = 0 := by decide
  refine ⟨hA, by decide, ?_, ?_⟩ <;> rw [hA] <;>
    norm_num [compute_metrics, exDocC5, blockedStep, pySum]

/-- C5 [amended]: `compute_metrics` returns the triple
`(step_count, avg_success, avg_volume)`: the first component is the length of
the steps sequence, the second the mean of the success values (missing
counted as 0), the third the mean of the volume values; no active count is
computed. -/
theorem C5_metrics_components (d : Doc) :
    (compute_metrics d).1 = (d.steps.getD []).length ∧
    (compute_metrics d).2.1 = meanSuccess d ∧
    (compute_metrics d).2.2 = meanVolume d := by
  refine ⟨rfl, ?_, ?_⟩ <;>
    simp only [compute_metrics, meanSuccess, meanVolume, pySum_eq_sum]

/-- C6 [counterexample]: for `steps = []` the code returns `avg_success = 0`,
a plain number — not a no-value distinct from 0 as the claim states. -/
theorem C6_counterexample : (compute_metrics emptyDoc).2.1 = 0 := rfl

/-- C6 [amended]: for `steps = []`, `compute_metrics` returns the triple
`(0, 0, 0)` (and in particular does not raise): `step_count = 0` and
`avg_success = 0`, the same `0` as for any all-zero document, not a distinct
no-value. -/
theorem C6_metrics_empty : compute_metrics emptyDoc = (0, 0, 0) := rfl

/-- C7 [counterexample]: the comma-decimal string `"87,5"`, which the claim
says parses to `87.5`, instead makes the success-rate conversion raise
`ValueError` (the code only strips `"%"` before calling `float`). -/
theorem C7_counterexample : parse_success (.str "87,5") = .error "ValueError" := by
  have h1 : stripPct ['8', '7', ',', '5'] = ['8', '7', ',', '5'] := by decide
  have h2 : pyFloatParts? ['8', '7', ',', '5'] = none := by decide
  simp +decide [parse_success, pyFloat?, h1, h2]

/-- C7 [amended]: success-rate parsing strips `%` only: `"87.5%"`, `"87.5"`
and the number `87.5` all parse to `87.5`, but `"87,5"` and `"n/a"` raise
`ValueError` instead of being excluded; and in `compute_metrics` a missing
success value is averaged in as 0 rather than excluded from the aggregate
(two steps with successes `80` and absent average to `40`). -/
theorem C7_parse_behavior :
    parse_success (.str "87.5%") = .ok (175 / 2) ∧
    parse_success (.str "87.5") = .ok (175 / 2) ∧
    parse_success (.num (175 / 2)) = .ok (175 / 2) ∧
    parse_success (.str "87,5") = .error "ValueError" ∧
    parse_success (.str "n/a") = .error "ValueError" ∧
    (compute_metrics exDocC7).2.1 = 40 := by
  have e1 : stripPct ['8', '7', '.', '5', '%'] = ['8', '7', '.', '5'] := by decide
  have e2 : stripPct ['8', '7', '.', '5'] = ['8', '7', '.', '5'] := by decide
  have e3 : pyFloatParts? ['8', '7', '.', '5'] = some (false, 87, 5, 1) := by decide
  have e4 : stripPct ['8', '7', ',', '5'] = ['8', '7', ',', '5'] := by decide
  have e5 : pyFloatParts? ['8', '7', ',', '5'] = none := by decide
  have e6 : stripPct ['n', '/', 'a'] = ['n', '/', 'a'] := by decide
  have e7 : pyFloatParts? ['n', '/', 'a'] = none := by decide
  refine ⟨?_, ?_, rfl, ?_, ?_, ?_⟩ <;>
    simp +decide [parse_success, pyFloat?, e1, e2, e3, e4, e5, e6, e7, partsToQ,
      compute_metrics, exDocC7, pySum] <;> norm_num

/-- C8 [counterexample]: a perfectly readable legacy file
`{"nodes": [{"success_rate": "n/a"}]}` does not fall back to the default
document: `load_flow` raises `ValueError`, because the node conversion runs
outside the `try` block. -/
theorem C8_counterexample : load_flow freshDemo badNodesFile = .error "ValueError" := rfl

/-- C8 [amended]: on a missing file, an unreadable file, a non-dict top
level, or a dict with neither `"steps"` nor `"nodes"`, `load_flow` returns
the hardcoded non-empty (11-step) default document; a dict with a `"steps"`
key loads and normalizes it.  But the legacy `"nodes"` conversion can raise
(see the counterexample), so load is not total. -/
theorem C8_load_fallback (fresh : Nat → String) :
    load_flow fresh .missing = .ok (default_flow fresh) ∧
    load_flow fresh .unreadable = .ok (default_flow fresh) ∧
    load_flow fresh (.content .nonDict) = .ok (default_flow fresh) ∧
    load_flow fresh (.content (.dict none none)) = .ok (default_flow fresh) ∧
    ((default_flow fresh).steps.getD []).length = 11 ∧
    (∀ steps nodes, load_flow fresh (.content (.dict (some steps) nodes)) =
      .ok (normalize_flow fresh { steps := some steps })) := by
  exact ⟨rfl, rfl, rfl, rfl, rfl, fun steps nodes => rfl⟩

/-- C9 [counterexample]: a document whose single step has the invalid phase
`"X"` and order `5` does not round-trip: after `save` then `load` the phase
has been coerced to `"Pilot & Initiate"` and the order recomputed to `0`. -/
theorem C9_counterexample :
    saveLoad freshDemo exDocC9 = .ok { steps := some [exStepC9Res] } ∧
    exStepC9Res.phase = some "Pilot & Initiate" ∧
    (exDocC9.steps.getD []).map Step.phase = [some "X"] ∧
    exStepC9Res.order = some 0 ∧
    (exDocC9.steps.getD []).map Step.order = [some 5] := by
  exact ⟨rfl, rfl, rfl, rfl, rfl⟩

/-- C9 [amended]: a save/load round trip is exactly `normalize`: for any
document with a `"steps"` key, `load(save(doc))` yields `normalize(doc)`;
hence every document already fixed by `normalize` (in particular any document
previously saved after normalization) round-trips with every step's every
field — id, title, phase, path, and the numeric fields — preserved exactly. -/
theorem C9_roundtrip_eq_normalize (fresh : Nat → String) (d : Doc) (l : List Step)
    (h : d.steps = some l) :
    saveLoad fresh d = .ok (normalize_flow fresh d) ∧
    (normalize_flow fresh d = d → saveLoad fresh d = .ok d) := by
  cases d with
  | mk st =>
    cases h
    refine ⟨rfl, fun hn => ?_⟩
    have h1 : saveLoad fresh { steps := some l } =
        .ok (normalize_flow fresh { steps := some l }) := rfl
    rw [hn] at h1
    exact h1

/-- C9 [witness]: the round-trip theorem applied to a concrete normalized
one-step document. -/
theorem C9_roundtrip_witness : saveLoad freshDemo exDocNormed = .ok exDocNormed :=
  (C9_roundtrip_eq_normalize freshDemo exDocNormed [exStepNormed] rfl).2 (by decide)

/-- C4 [counterexample]: `normalize_flow` neither clamps nor defaults to 100:
a step with `volume = 150` keeps `150` (outside `[0,100]`), and a step with
no volume key gets `0`, not `100`. -/
theorem C4_counterexample :
    ((normalize_flow freshDemo exDocC4).steps.getD []).map Step.volume = [some 150, some 0] ∧
    ¬((150 : ℚ) ≤ 100) ∧ (0 : ℚ) ≠ 100 := by
  refine ⟨rfl, by norm_num, by norm_num⟩

/-- C10: the third component of what `compute_metrics` returns is
`avg_volume`, the arithmetic mean of the steps' volume values with a missing
volume counting as 0, and it is 0 for an empty steps sequence.  (The
computation is a pure function of the document: the embedding returns a fresh
triple and the Python code only reads `flow`.) -/
theorem C10_avg_volume (d : Doc) :
    (compute_metrics d).2.2 = meanVolume d ∧
    (d.steps.getD [] = [] → (compute_metrics d).2.2 = 0) := by
  constructor
  · simp only [compute_metrics, meanVolume, pySum_eq_sum]
  · intro h; simp [compute_metrics, h]

/-- C10 [witness]: the theorem applied to the empty document. -/
theorem C10_avg_volume_witness : (compute_metrics emptyDoc).2.2 = 0 :=
  (C10_avg_volume emptyDoc).2 rfl

end LaunchNav
